import Mathlib

/-!
# Verification of the downlink encoding pipeline (`encDl`)

Shallow embedding of the encode-and-compare pipeline from `src/encdl.cpp`:
CRC attachment (mod-2 vector-matrix product), RNTI scramble (elementwise
XOR against a left-zero-padded identifier), CRC attachment by concatenation,
CRC interleaving (index gather), frozen-bit insertion (masked scatter),
structured encoding (mod-2 vector-matrix product), rate matching (index
gather) and verification (sum of absolute bit differences against a
reference vector).

Bit vectors are `List Nat` (the source uses arrays of `int`, holding 0/1
data); index and mask patterns are `List Int` (the source reads them as
`int`).  The happy-path computations are translated from the source; the
error branches (`IndexOutOfRange`, `ArityMismatch`, `ShapeMismatch`,
`LengthMismatch`) are modelled from the spec, because the source delegates
those situations to the tensor library, where an out-of-range read is
undefined behaviour rather than a checked error.
-/

/-- Error taxonomy of the pipeline.  Modelled from the spec: the source
has no explicit error type; the spec names these four failure modes. -/
inductive EncErr where
  | LengthMismatch
  | ShapeMismatch
  | IndexOutOfRange
  | ArityMismatch
deriving DecidableEq

/-- The parameter set `params_s` from `encdl.h`: `A` info bits, `P` CRC
bits, `K = A + P` block length, `E` rate-matched length, `N` encoded
block length. -/
structure params_s where
  A : Nat
  P : Nat
  K : Nat
  E : Nat
  N : Nat
deriving DecidableEq

/-- Elementwise XOR of two bit vectors (the source computes
`crcBits ^ padded` on equal-shape integer arrays).  Modelled from the
spec: failure with `LengthMismatch` on unequal lengths. -/
def xorBits (a b : List Nat) : Except EncErr (List Nat) :=
  if a.length = b.length then Except.ok (List.zipWith Nat.xor a b)
  else Except.error EncErr.LengthMismatch

/-- The `j`-th column of a row-major matrix (reads past a short row as 0). -/
def column (M : List (List Nat)) (j : Nat) : List Nat :=
  M.map (fun r => r.getD j 0)

/-- Vector-matrix product accumulated row by row, as the source's
`xt::linalg::dot(v, M)` computes it: the result is `Σ_i v_i • row_i`,
a vector of `cols` entries. -/
def dotVecMat (cols : Nat) : List Nat → List (List Nat) → List Nat
  | [], _ => List.replicate cols 0
  | _ :: _, [] => List.replicate cols 0
  | x :: xs, r :: rs => List.zipWith (fun a b => x * a + b) r (dotVecMat cols xs rs)

/-- Mod-2 vector-matrix product: the source computes the integer dot
product and then applies `%= 2`. -/
def dotMod2 (cols : Nat) (v : List Nat) (M : List (List Nat)) : List Nat :=
  (dotVecMat cols v M).map (fun t => t % 2)

/-- Index gather, the source's `xt::index_view(source, pattern)`:
`output[i] = source[pattern[i]]`.  Modelled from the spec: a pattern value
outside `[0, len(source))` fails with `IndexOutOfRange` (the source's
library read at such an index is undefined behaviour). -/
def gather (source : List Nat) (pattern : List Int) : Except EncErr (List Nat) :=
  if pattern.all (fun p => decide (0 ≤ p) && decide (p < (source.length : Int))) then
    Except.ok (pattern.map (fun p => source.getD p.toNat 0))
  else Except.error EncErr.IndexOutOfRange

/-- The fill step of masked scatter, the source's
`xt::filter(frozenBits, mask > 0) = values` on a zero-initialised vector:
positions with a positive mask entry take successive elements of `values`
in index order, the remaining positions stay 0. -/
def scatterFill : List Int → List Nat → List Nat
  | [], _ => []
  | m :: ms, vs =>
    if 0 < m then vs.headD 0 :: scatterFill ms vs.tail
    else 0 :: scatterFill ms vs

/-- Masked scatter.  Modelled from the spec: failure with `ArityMismatch`
when the count of positive mask entries differs from `len(values)` (the
source delegates that mismatch to the tensor library's broadcast rules). -/
def scatter (maskPattern : List Int) (values : List Nat) : Except EncErr (List Nat) :=
  if maskPattern.countP (fun m => decide (0 < m)) = values.length then
    Except.ok (scatterFill maskPattern values)
  else Except.error EncErr.ArityMismatch

/-- The positions of the positive entries of a mask, in ascending index
order (used to read back the scattered values). -/
def maskPositions : List Int → List Int
  | [] => []
  | m :: ms =>
    if 0 < m then 0 :: (maskPositions ms).map (fun i => i + 1)
    else (maskPositions ms).map (fun i => i + 1)

/-- Verification step: the source computes
`nDiffBits = sum(abs(rmRefs - rmBits))` over integers. -/
def verifyBits (a b : List Nat) : Nat :=
  (List.zipWith (fun x y => ((x : Int) - (y : Int)).natAbs) a b).sum

/-- The CRC stage: `crcBits = (concat(ones(P), infoBits) · crcGenMtx) % 2`. -/
def crcStage (P : Nat) (infoBits : List Nat) (crcGenMtx : List (List Nat)) : List Nat :=
  dotMod2 P (List.replicate P 1 ++ infoBits) crcGenMtx

/-- The scramble stage: XOR of the CRC bits against the RNTI bits
zero-padded on the left to length `P` (the source concatenates
`zeros(P - rntiBits.size())` with `rntiBits`). -/
def scramble (P : Nat) (crcBits rntiBits : List Nat) : Except EncErr (List Nat) :=
  xorBits crcBits (List.replicate (P - rntiBits.length) 0 ++ rntiBits)

/-- All intermediate vectors of one pipeline run, plus the final mismatch
count, named as in the source. -/
structure EncOut where
  crcBits : List Nat
  scrBits : List Nat
  infoCrcBits : List Nat
  intrlBits : List Nat
  frozenBits : List Nat
  encBits : List Nat
  rmBits : List Nat
  nDiffBits : Nat
deriving DecidableEq

/-- The pipeline `encDl` from `encdl.cpp`, over already-loaded inputs
(the file reading of the source is out of scope; matrices are passed as
row lists, as the source obtains them by reshape-and-transpose of the
flat files).  Shape checks are modelled from the spec (`ShapeMismatch`
when a matrix or mask does not match the lengths implied by the
parameter set); each stage's computation is translated from the source,
and any stage error aborts the remaining stages. -/
def encDl (params : params_s) (infoBits : List Nat) (crcGenMtx : List (List Nat))
    (rntiBits : List Nat) (crcIntrl : List Int) (infoIntrl : List Int)
    (encGenMtx : List (List Nat)) (encIntrl : List Int) (rmRefs : List Nat) :
    Except EncErr EncOut :=
  if crcGenMtx.length = params.K ∧ ∀ r ∈ crcGenMtx, r.length = params.P then
    let crcBits := crcStage params.P infoBits crcGenMtx
    match scramble params.P crcBits rntiBits with
    | Except.error e => Except.error e
    | Except.ok scrBits =>
      let infoCrcBits := infoBits ++ scrBits
      match gather infoCrcBits crcIntrl with
      | Except.error e => Except.error e
      | Except.ok intrlBits =>
        if infoIntrl.length = params.N then
          match scatter infoIntrl intrlBits with
          | Except.error e => Except.error e
          | Except.ok frozenBits =>
            if encGenMtx.length = params.N ∧ ∀ r ∈ encGenMtx, r.length = params.N then
              let encBits := dotMod2 params.N frozenBits encGenMtx
              match gather encBits encIntrl with
              | Except.error e => Except.error e
              | Except.ok rmBits =>
                Except.ok ⟨crcBits, scrBits, infoCrcBits, intrlBits, frozenBits,
                  encBits, rmBits, verifyBits rmRefs rmBits⟩
            else Except.error EncErr.ShapeMismatch
        else Except.error EncErr.ShapeMismatch
  else Except.error EncErr.ShapeMismatch

/-- C1: end-to-end run with `A=4, P=3, K=7, N=8, E=6`, `infoBits=[1,0,1,1]`,
a CRC generator matrix chosen so that `crcBits=[0,1,0]`, `rntiBits=[1]`,
identity CRC interleaver, `infoBitPattern=[1,1,1,1,1,1,1,0]`, identity 8×8
encoder matrix and `rateMatchingPattern=[0,1,2,3,4,5]`: the pipeline
produces `scrBits=[0,1,1]`, `infoCrcBits=[1,0,1,1,0,1,1]`,
`intrlBits=infoCrcBits`, `frozenBits=[1,0,1,1,0,1,1,0]`,
`encBits=frozenBits`, `rmBits=[1,0,1,1,0,1]`, and verification against a
reference equal to `rmBits` yields mismatch count 0. -/
theorem encDl_end_to_end :
    encDl ⟨4, 3, 7, 6, 8⟩ [1, 0, 1, 1]
      [[0, 1, 0], [0, 0, 0], [0, 0, 0], [0, 0, 0], [0, 0, 0], [0, 0, 0], [0, 0, 0]]
      [1] [0, 1, 2, 3, 4, 5, 6] [1, 1, 1, 1, 1, 1, 1, 0]
      [[1, 0, 0, 0, 0, 0, 0, 0], [0, 1, 0, 0, 0, 0, 0, 0], [0, 0, 1, 0, 0, 0, 0, 0],
       [0, 0, 0, 1, 0, 0, 0, 0], [0, 0, 0, 0, 1, 0, 0, 0], [0, 0, 0, 0, 0, 1, 0, 0],
       [0, 0, 0, 0, 0, 0, 1, 0], [0, 0, 0, 0, 0, 0, 0, 1]]
      [0, 1, 2, 3, 4, 5] [1, 0, 1, 1, 0, 1] =
    Except.ok ⟨[0, 1, 0], [0, 1, 1], [1, 0, 1, 1, 0, 1, 1], [1, 0, 1, 1, 0, 1, 1],
      [1, 0, 1, 1, 0, 1, 1, 0], [1, 0, 1, 1, 0, 1, 1, 0], [1, 0, 1, 1, 0, 1], 0⟩ := by
  rfl

/-! ## Basic helper lemmas -/

theorem getD_zero_headD (l : List Nat) : l.getD 0 0 = l.headD 0 := by
  cases l <;> rfl

theorem getD_succ_tail (l : List Nat) (k : Nat) : l.getD (k + 1) 0 = l.tail.getD k 0 := by
  cases l <;> rfl

theorem getD_replicate_zero (n j : Nat) : (List.replicate n (0 : Nat)).getD j 0 = 0 := by
  induction n generalizing j with
  | zero => rfl
  | succ n ih =>
    cases j with
    | zero => rfl
    | succ j => simp [List.replicate, ih j]

theorem map_congr_mem {α β : Type} (f g : α → β) :
    ∀ l : List α, (∀ a ∈ l, f a = g a) → l.map f = l.map g := by
  intro l
  induction l with
  | nil => intro _; rfl
  | cons a l ih =>
    intro h
    simp only [List.map_cons, h a (by simp)]
    rw [ih (fun b hb => h b (by simp [hb]))]

theorem length_scatterFill (mask : List Int) (values : List Nat) :
    (scatterFill mask values).length = mask.length := by
  induction mask generalizing values with
  | nil => rfl
  | cons m ms ih =>
    by_cases h : 0 < m <;> simp [scatterFill, h, ih]

/-- C8: a CRC generator matrix whose row count differs from `K` makes the
pipeline fail with `ShapeMismatch`, whatever the other inputs are: no
stage computes and no partial output is produced. -/
theorem encDl_shape_mismatch (params : params_s) (infoBits : List Nat)
    (crcGenMtx : List (List Nat)) (rntiBits : List Nat) (crcIntrl infoIntrl : List Int)
    (encGenMtx : List (List Nat)) (encIntrl : List Int) (rmRefs : List Nat)
    (h : crcGenMtx.length ≠ params.K) :
    encDl params infoBits crcGenMtx rntiBits crcIntrl infoIntrl encGenMtx encIntrl rmRefs =
      Except.error EncErr.ShapeMismatch := by
  unfold encDl
  rw [if_neg]
  intro hc
  exact h hc.1

theorem encDl_shape_mismatch_witness :
    encDl ⟨4, 3, 7, 6, 8⟩ [1, 0, 1, 1] [[0, 1, 0]] [1] [0, 1, 2, 3, 4, 5, 6]
      [1, 1, 1, 1, 1, 1, 1, 0] [] [0, 1, 2, 3, 4, 5] [1, 0, 1, 1, 0, 1] =
      Except.error EncErr.ShapeMismatch :=
  encDl_shape_mismatch ⟨4, 3, 7, 6, 8⟩ [1, 0, 1, 1] [[0, 1, 0]] [1] [0, 1, 2, 3, 4, 5, 6]
    [1, 1, 1, 1, 1, 1, 1, 0] [] [0, 1, 2, 3, 4, 5] [1, 0, 1, 1, 0, 1] (by decide)

/-- C5: for CRC bits of length `P` and RNTI bits of length at most `P`,
the scramble stage succeeds and returns the elementwise XOR of the CRC
bits with the RNTI bits zero-padded on the left to length `P`; the result
has length `P`. -/
theorem scramble_spec (P : Nat) (crcBits rntiBits : List Nat)
    (hc : crcBits.length = P) (hr : rntiBits.length ≤ P) :
    scramble P crcBits rntiBits =
      Except.ok (List.zipWith Nat.xor crcBits
        (List.replicate (P - rntiBits.length) 0 ++ rntiBits)) ∧
    (List.zipWith Nat.xor crcBits
      (List.replicate (P - rntiBits.length) 0 ++ rntiBits)).length = P := by
  have hlen : (List.replicate (P - rntiBits.length) (0 : Nat) ++ rntiBits).length = P := by
    simp only [List.length_append, List.length_replicate]
    omega
  constructor
  · unfold scramble xorBits
    rw [if_pos (by rw [hc, hlen])]
  · rw [List.length_zipWith, hc, hlen, Nat.min_self]

theorem scramble_spec_witness :
    scramble 3 [0, 1, 0] [1] =
      Except.ok (List.zipWith Nat.xor [0, 1, 0] (List.replicate (3 - 1) 0 ++ [1])) ∧
    (List.zipWith Nat.xor [0, 1, 0] (List.replicate (3 - 1) 0 ++ [1])).length = 3 :=
  scramble_spec 3 [0, 1, 0] [1] (by decide) (by decide)

/-- C6: a gather whose pattern holds any value outside `[0, len(source))`
fails with `IndexOutOfRange` and never returns a value; this is the one
gather function used for both the CRC interleaving and rate matching
stages of `encDl`. -/
theorem gather_oob_spec (source : List Nat) (pattern : List Int)
    (h : ∃ p ∈ pattern, p < 0 ∨ (source.length : Int) ≤ p) :
    gather source pattern = Except.error EncErr.IndexOutOfRange := by
  unfold gather
  rw [if_neg]
  intro hall
  rw [List.all_eq_true] at hall
  obtain ⟨p, hp, hbad⟩ := h
  have h2 := hall p hp
  simp only [Bool.and_eq_true, decide_eq_true_eq] at h2
  rcases hbad with h1 | h1 <;> omega

theorem gather_oob_spec_witness :
    gather [1, 0] [5] = Except.error EncErr.IndexOutOfRange :=
  gather_oob_spec [1, 0] [5] ⟨5, by simp, Or.inr (by decide)⟩

/-- C7: scatter fails with `ArityMismatch` exactly when the count of
positive mask entries differs from the number of values; with equal
counts it succeeds and the output has the mask's length. -/
theorem scatter_arity_spec (maskPattern : List Int) (values : List Nat) :
    (scatter maskPattern values = Except.error EncErr.ArityMismatch ↔
      maskPattern.countP (fun m => decide (0 < m)) ≠ values.length) ∧
    (maskPattern.countP (fun m => decide (0 < m)) = values.length →
      scatter maskPattern values = Except.ok (scatterFill maskPattern values) ∧
      (scatterFill maskPattern values).length = maskPattern.length) := by
  constructor
  · by_cases h : maskPattern.countP (fun m => decide (0 < m)) = values.length
    · simp [scatter, h]
    · simp [scatter, h]
  · intro h
    exact ⟨by simp [scatter, h], length_scatterFill maskPattern values⟩

theorem scatter_arity_spec_witness :
    scatter [(1 : Int), -2, 1] [] = Except.error EncErr.ArityMismatch ∧
    scatter [(1 : Int), -2, 1] [1, 0] = Except.ok (scatterFill [(1 : Int), -2, 1] [1, 0]) ∧
    (scatterFill [(1 : Int), -2, 1] [1, 0]).length = 3 :=
  ⟨(scatter_arity_spec [(1 : Int), -2, 1] []).1.mpr (by decide),
   (scatter_arity_spec [(1 : Int), -2, 1] [1, 0]).2 (by decide)⟩

/-! ## The mod-2 dot product computes column parities -/

theorem length_dotVecMat (cols : Nat) (v : List Nat) (M : List (List Nat))
    (hM : ∀ r ∈ M, r.length = cols) : (dotVecMat cols v M).length = cols := by
  induction v generalizing M with
  | nil => simp [dotVecMat]
  | cons x xs ih =>
    cases M with
    | nil => simp [dotVecMat]
    | cons r rs =>
      have hr : r.length = cols := hM r (List.mem_cons_self r rs)
      have hrs : ∀ q ∈ rs, q.length = cols := fun q hq => hM q (List.mem_cons_of_mem r hq)
      simp [dotVecMat, List.length_zipWith, hr, ih rs hrs]

theorem getD_dotVecMat (cols : Nat) (v : List Nat) (M : List (List Nat))
    (hM : ∀ r ∈ M, r.length = cols) (j : Nat) (hj : j < cols) :
    (dotVecMat cols v M).getD j 0 =
      (List.zipWith (fun a b => a * b) v (column M j)).sum := by
  induction v generalizing M with
  | nil => simp [dotVecMat, getD_replicate_zero]
  | cons x xs ih =>
    cases M with
    | nil => simp [dotVecMat, column, getD_replicate_zero]
    | cons r rs =>
      have hr : r.length = cols := hM r (List.mem_cons_self r rs)
      have hrs : ∀ q ∈ rs, q.length = cols := fun q hq => hM q (List.mem_cons_of_mem r hq)
      have hlen : (dotVecMat cols xs rs).length = cols := length_dotVecMat cols xs rs hrs
      have hj1 : j < (List.zipWith (fun a b => x * a + b) r (dotVecMat cols xs rs)).length := by
        rw [List.length_zipWith, hr, hlen, Nat.min_self]
        exact hj
      have hjr : j < r.length := by omega
      have hjd : j < (dotVecMat cols xs rs).length := by omega
      show (List.zipWith (fun a b => x * a + b) r (dotVecMat cols xs rs)).getD j 0 = _
      rw [List.getD_eq_getElem _ _ hj1, List.getElem_zipWith]
      have h1 : r[j] = r.getD j 0 := (List.getD_eq_getElem r 0 hjr).symm
      have h2 : (dotVecMat cols xs rs)[j] = (dotVecMat cols xs rs).getD j 0 :=
        (List.getD_eq_getElem _ 0 hjd).symm
      rw [h1, h2, ih rs hrs]
      show _ = (List.zipWith (fun a b => a * b) (x :: xs) (r.getD j 0 :: column rs j)).sum
      rw [List.zipWith_cons_cons, List.sum_cons]

theorem dotMod2_eq_columns (cols : Nat) (v : List Nat) (M : List (List Nat))
    (hM : ∀ r ∈ M, r.length = cols) :
    dotMod2 cols v M = (List.range cols).map
      (fun j => (List.zipWith (fun a b => a * b) v (column M j)).sum % 2) := by
  have hlen : (dotVecMat cols v M).length = cols := length_dotVecMat cols v M hM
  apply List.ext_getElem
  · simp [dotMod2, hlen]
  · intro j h1 h2
    have hj : j < cols := by
      simpa [dotMod2, hlen] using h1
    simp only [dotMod2, List.getElem_map, List.getElem_range]
    rw [← List.getD_eq_getElem _ 0 (by omega : j < (dotVecMat cols v M).length)]
    rw [getD_dotVecMat cols v M hM j hj]

/-- C3: for `K = A + P`, info bits of length `A` and a binary `K`-row by
`P`-column CRC generator matrix, the CRC stage returns
`dotMod2(concat(ones(P), infoBits), crcGenMtx)`: a vector of exactly `P`
bits whose `j`-th bit is the mod-2 parity of the dot product of the `P`
ones followed by the info bits with the `j`-th matrix column. -/
theorem crcStage_spec (A P K : Nat) (infoBits : List Nat) (crcGenMtx : List (List Nat))
    (hK : K = A + P) (hA : infoBits.length = A) (hrows : crcGenMtx.length = K)
    (hcols : ∀ r ∈ crcGenMtx, r.length = P)
    (hbin : ∀ r ∈ crcGenMtx, ∀ x ∈ r, x = 0 ∨ x = 1) :
    crcStage P infoBits crcGenMtx = (List.range P).map
      (fun j => (List.zipWith (fun a b => a * b)
        (List.replicate P 1 ++ infoBits) (column crcGenMtx j)).sum % 2) ∧
    (crcStage P infoBits crcGenMtx).length = P := by
  constructor
  · exact dotMod2_eq_columns P _ crcGenMtx hcols
  · simp only [crcStage, dotMod2, List.length_map]
    exact length_dotVecMat P _ crcGenMtx hcols

theorem crcStage_spec_witness :
    crcStage 3 [1, 0, 1, 1]
        [[0, 1, 0], [0, 0, 0], [0, 0, 0], [0, 0, 0], [0, 0, 0], [0, 0, 0], [0, 0, 0]] =
      (List.range 3).map (fun j => (List.zipWith (fun a b => a * b)
        (List.replicate 3 1 ++ [1, 0, 1, 1])
        (column [[0, 1, 0], [0, 0, 0], [0, 0, 0], [0, 0, 0], [0, 0, 0], [0, 0, 0], [0, 0, 0]]
          j)).sum % 2) ∧
    (crcStage 3 [1, 0, 1, 1]
      [[0, 1, 0], [0, 0, 0], [0, 0, 0], [0, 0, 0], [0, 0, 0], [0, 0, 0], [0, 0, 0]]).length = 3 :=
  crcStage_spec 4 3 7 [1, 0, 1, 1]
    [[0, 1, 0], [0, 0, 0], [0, 0, 0], [0, 0, 0], [0, 0, 0], [0, 0, 0], [0, 0, 0]]
    rfl rfl rfl (by decide) (by decide)

/-! ## Scatter: closed form, positive positions, round trip with gather -/

theorem scatterFill_eq_rankMap (mask : List Int) (values : List Nat) :
    scatterFill mask values = (List.range mask.length).map (fun i =>
      if 0 < mask.getD i 0 then
        values.getD ((mask.take i).countP (fun m => decide (0 < m))) 0
      else 0) := by
  induction mask generalizing values with
  | nil => rfl
  | cons m ms ih =>
    rw [List.length_cons, List.range_succ_eq_map, List.map_cons, List.map_map]
    by_cases hm : 0 < m
    · have hsf : scatterFill (m :: ms) values = values.headD 0 :: scatterFill ms values.tail := by
        simp [scatterFill, hm]
      rw [hsf]
      congr 1
      · cases values <;> simp [hm]
      · rw [ih values.tail]
        apply map_congr_mem
        intro i _
        simp [Function.comp, List.take_succ_cons, List.countP_cons, hm, getD_succ_tail]
    · have hsf : scatterFill (m :: ms) values = 0 :: scatterFill ms values := by
        simp [scatterFill, hm]
      rw [hsf]
      congr 1
      · simp [hm]
      · rw [ih values]
        apply map_congr_mem
        intro i _
        simp [Function.comp, List.take_succ_cons, List.countP_cons, hm]

theorem scatterFill_positives (mask : List Int) (values : List Nat)
    (h : mask.countP (fun m => decide (0 < m)) = values.length) :
    ((mask.zip (scatterFill mask values)).filter
      (fun p => decide (0 < p.1))).map Prod.snd = values := by
  induction mask generalizing values with
  | nil =>
    have hv : values.length = 0 := by simpa using h.symm
    rw [List.length_eq_zero] at hv
    subst hv
    rfl
  | cons m ms ih =>
    by_cases hm : 0 < m
    · cases values with
      | nil => simp [List.countP_cons, hm] at h
      | cons v vs =>
        have h2 : ms.countP (fun x => decide (0 < x)) = vs.length := by
          simp only [List.countP_cons, List.length_cons, decide_eq_true_eq, if_pos hm] at h
          omega
        simp [scatterFill, hm, List.filter_cons, ih vs h2]
    · have h2 : ms.countP (fun x => decide (0 < x)) = values.length := by
        simpa [List.countP_cons, hm] using h
      simp [scatterFill, hm, List.filter_cons, ih values h2]

/-- C4: with a mask whose positive-entry count equals the number of
interleaved bits, the frozen-bit insertion stage succeeds and returns a
vector of the mask's length in which every position with a non-positive
mask entry holds zero, while the positions with positive mask entries
hold the interleaved bits in ascending index order. -/
theorem scatter_frozen_spec (infoBitPattern : List Int) (intrlBits : List Nat)
    (h : infoBitPattern.countP (fun m => decide (0 < m)) = intrlBits.length) :
    scatter infoBitPattern intrlBits = Except.ok (scatterFill infoBitPattern intrlBits) ∧
    (scatterFill infoBitPattern intrlBits).length = infoBitPattern.length ∧
    scatterFill infoBitPattern intrlBits = (List.range infoBitPattern.length).map (fun i =>
      if 0 < infoBitPattern.getD i 0 then
        intrlBits.getD ((infoBitPattern.take i).countP (fun m => decide (0 < m))) 0
      else 0) ∧
    ((infoBitPattern.zip (scatterFill infoBitPattern intrlBits)).filter
      (fun p => decide (0 < p.1))).map Prod.snd = intrlBits :=
  ⟨by simp [scatter, h], length_scatterFill _ _, scatterFill_eq_rankMap _ _,
   scatterFill_positives _ _ h⟩

theorem scatter_frozen_spec_witness :
    scatter [(2 : Int), 0, 1, -1] [1, 0] = Except.ok (scatterFill [(2 : Int), 0, 1, -1] [1, 0]) ∧
    (scatterFill [(2 : Int), 0, 1, -1] [1, 0]).length = 4 ∧
    scatterFill [(2 : Int), 0, 1, -1] [1, 0] = (List.range 4).map (fun i =>
      if 0 < List.getD [(2 : Int), 0, 1, -1] i 0 then
        List.getD [1, 0] ((List.take i [(2 : Int), 0, 1, -1]).countP (fun m => decide (0 < m))) 0
      else 0) ∧
    ((List.zip [(2 : Int), 0, 1, -1] (scatterFill [(2 : Int), 0, 1, -1] [1, 0])).filter
      (fun p => decide (0 < p.1))).map Prod.snd = [1, 0] :=
  scatter_frozen_spec [(2 : Int), 0, 1, -1] [1, 0] (by decide)

theorem gather_ok (source : List Nat) (pattern : List Int)
    (h : ∀ p ∈ pattern, 0 ≤ p ∧ p < (source.length : Int)) :
    gather source pattern = Except.ok (pattern.map (fun p => source.getD p.toNat 0)) := by
  unfold gather
  rw [if_pos]
  rw [List.all_eq_true]
  intro p hp
  simp only [Bool.and_eq_true, decide_eq_true_eq]
  exact h p hp

theorem maskPositions_mem (mask : List Int) :
    ∀ p ∈ maskPositions mask, 0 ≤ p ∧ p < (mask.length : Int) := by
  induction mask with
  | nil => intro p hp; simp [maskPositions] at hp
  | cons m ms ih =>
    intro p hp
    by_cases hm : 0 < m
    · simp only [maskPositions, if_pos hm, List.mem_cons, List.mem_map] at hp
      rcases hp with rfl | ⟨q, hq, rfl⟩
      · simp only [List.length_cons]
        exact ⟨le_refl 0, by push_cast; omega⟩
      · have := ih q hq
        simp only [List.length_cons]
        push_cast
        omega
    · simp only [maskPositions, if_neg hm, List.mem_map] at hp
      obtain ⟨q, hq, rfl⟩ := hp
      have := ih q hq
      simp only [List.length_cons]
      push_cast
      omega

theorem maskPositions_map_getD (mask : List Int) (values : List Nat)
    (h : mask.countP (fun m => decide (0 < m)) = values.length) :
    (maskPositions mask).map (fun p => (scatterFill mask values).getD p.toNat 0) = values := by
  induction mask generalizing values with
  | nil =>
    have hv : values.length = 0 := by simpa using h.symm
    rw [List.length_eq_zero] at hv
    subst hv
    rfl
  | cons m ms ih =>
    by_cases hm : 0 < m
    · cases values with
      | nil => simp [List.countP_cons, hm] at h
      | cons v vs =>
        have h2 : ms.countP (fun x => decide (0 < x)) = vs.length := by
          simp only [List.countP_cons, List.length_cons, decide_eq_true_eq, if_pos hm] at h
          omega
        have hsf : scatterFill (m :: ms) (v :: vs) = v :: scatterFill ms vs := by
          simp [scatterFill, hm]
        have hmp : maskPositions (m :: ms) = 0 :: (maskPositions ms).map (fun i => i + 1) := by
          simp [maskPositions, hm]
        rw [hmp, hsf, List.map_cons, List.map_map]
        congr 1
        have hpt : ∀ q ∈ maskPositions ms,
            ((fun p => (v :: scatterFill ms vs).getD p.toNat 0) ∘ fun i => i + 1) q =
            (fun p => (scatterFill ms vs).getD p.toNat 0) q := by
          intro q hq
          have hq0 : 0 ≤ q := (maskPositions_mem ms q hq).1
          have h3 : (q + 1).toNat = q.toNat + 1 := by omega
          simp only [Function.comp]
          rw [h3, List.getD_cons_succ]
        rw [map_congr_mem _ _ (maskPositions ms) hpt, ih vs h2]
    · have h2 : ms.countP (fun x => decide (0 < x)) = values.length := by
        simpa [List.countP_cons, hm] using h
      have hsf : scatterFill (m :: ms) values = 0 :: scatterFill ms values := by
        simp [scatterFill, hm]
      have hmp : maskPositions (m :: ms) = (maskPositions ms).map (fun i => i + 1) := by
        simp [maskPositions, hm]
      rw [hmp, hsf, List.map_map]
      have hpt : ∀ q ∈ maskPositions ms,
          ((fun p => (0 :: scatterFill ms values).getD p.toNat 0) ∘ fun i => i + 1) q =
          (fun p => (scatterFill ms values).getD p.toNat 0) q := by
        intro q hq
        have hq0 : 0 ≤ q := (maskPositions_mem ms q hq).1
        have h3 : (q + 1).toNat = q.toNat + 1 := by omega
        simp only [Function.comp]
        rw [h3, List.getD_cons_succ]
      rw [map_congr_mem _ _ (maskPositions ms) hpt, ih values h2]

/-- C9: scatter followed by gather at the positions of the positive mask
entries, taken in ascending index order, returns exactly the scattered
values (the round trip is the identity on the values). -/
theorem scatter_gather_roundtrip (mask : List Int) (values : List Nat)
    (h : mask.countP (fun m => decide (0 < m)) = values.length) :
    scatter mask values = Except.ok (scatterFill mask values) ∧
    gather (scatterFill mask values) (maskPositions mask) = Except.ok values := by
  refine ⟨by simp [scatter, h], ?_⟩
  have hb : ∀ p ∈ maskPositions mask,
      0 ≤ p ∧ p < ((scatterFill mask values).length : Int) := by
    intro p hp
    rw [length_scatterFill]
    exact maskPositions_mem mask p hp
  rw [gather_ok _ _ hb, maskPositions_map_getD mask values h]

theorem scatter_gather_roundtrip_witness :
    scatter [(3 : Int), -1, 2] [0, 1] = Except.ok (scatterFill [(3 : Int), -1, 2] [0, 1]) ∧
    gather (scatterFill [(3 : Int), -1, 2] [0, 1]) (maskPositions [(3 : Int), -1, 2]) =
      Except.ok [0, 1] :=
  scatter_gather_roundtrip [(3 : Int), -1, 2] [0, 1] (by decide)

/-! ## Verification: XOR-sum characterisation and symmetry -/

theorem absDiff_eq_xor (x y : Nat) (hx : x = 0 ∨ x = 1) (hy : y = 0 ∨ y = 1) :
    ((x : Int) - (y : Int)).natAbs = Nat.xor x y := by
  rcases hx with rfl | rfl <;> rcases hy with rfl | rfl <;> decide

/-- C2: for equal-length bit vectors with entries in 0/1, the
verification step computes the sum of the elementwise XOR of the two
vectors, and that count is zero exactly when the vectors are equal; the
count is reported as a plain value. -/
theorem verifyBits_spec (a b : List Nat) (hlen : a.length = b.length)
    (ha : ∀ x ∈ a, x = 0 ∨ x = 1) (hb : ∀ x ∈ b, x = 0 ∨ x = 1) :
    verifyBits a b = (List.zipWith Nat.xor a b).sum ∧
    (verifyBits a b = 0 ↔ a = b) := by
  induction a generalizing b with
  | nil =>
    cases b with
    | nil => exact ⟨rfl, by simp [verifyBits]⟩
    | cons y ys => simp at hlen
  | cons x xs ih =>
    cases b with
    | nil => simp at hlen
    | cons y ys =>
      have hlen2 : xs.length = ys.length := by simpa using hlen
      have hx := ha x (List.mem_cons_self x xs)
      have hy := hb y (List.mem_cons_self y ys)
      have hxs : ∀ t ∈ xs, t = 0 ∨ t = 1 := fun t ht => ha t (List.mem_cons_of_mem x ht)
      have hys : ∀ t ∈ ys, t = 0 ∨ t = 1 := fun t ht => hb t (List.mem_cons_of_mem y ht)
      obtain ⟨ih1, ih2⟩ := ih ys hlen2 hxs hys
      have hstep : verifyBits (x :: xs) (y :: ys) =
          ((x : Int) - (y : Int)).natAbs + verifyBits xs ys := by
        simp [verifyBits]
      have hxy : ((x : Int) - (y : Int)).natAbs = Nat.xor x y := absDiff_eq_xor x y hx hy
      constructor
      · rw [hstep, hxy, ih1, List.zipWith_cons_cons, List.sum_cons]
      · rw [hstep]
        constructor
        · intro h0
          have hz1 : ((x : Int) - (y : Int)).natAbs = 0 := by omega
          have hz2 : verifyBits xs ys = 0 := by omega
          have h3 : (x : Int) - (y : Int) = 0 := Int.natAbs_eq_zero.mp hz1
          have hxy2 : x = y := by omega
          rw [hxy2, ih2.mp hz2]
        · intro heq
          injection heq with h1 h2
          subst h1
          rw [ih2.mpr h2]
          simp

theorem verifyBits_spec_witness :
    verifyBits [1, 0, 1] [1, 1, 0] = (List.zipWith Nat.xor [1, 0, 1] [1, 1, 0]).sum ∧
    (verifyBits [1, 0, 1] [1, 1, 0] = 0 ↔ [1, 0, 1] = [1, 1, 0]) :=
  verifyBits_spec [1, 0, 1] [1, 1, 0] (by decide) (by decide) (by decide)

/-- C10: for equal-length bit vectors with entries in 0/1, the
verification count is symmetric in its two arguments. -/
theorem verifyBits_symm (a b : List Nat) (hlen : a.length = b.length)
    (ha : ∀ x ∈ a, x = 0 ∨ x = 1) (hb : ∀ x ∈ b, x = 0 ∨ x = 1) :
    verifyBits a b = verifyBits b a := by
  induction a generalizing b with
  | nil => cases b <;> rfl
  | cons x xs ih =>
    cases b with
    | nil => rfl
    | cons y ys =>
      have hlen2 : xs.length = ys.length := by simpa using hlen
      have hxs : ∀ t ∈ xs, t = 0 ∨ t = 1 := fun t ht => ha t (List.mem_cons_of_mem x ht)
      have hys : ∀ t ∈ ys, t = 0 ∨ t = 1 := fun t ht => hb t (List.mem_cons_of_mem y ht)
      have h1 : verifyBits (x :: xs) (y :: ys) =
          ((x : Int) - (y : Int)).natAbs + verifyBits xs ys := by
        simp [verifyBits]
      have h2 : verifyBits (y :: ys) (x :: xs) =
          ((y : Int) - (x : Int)).natAbs + verifyBits ys xs := by
        simp [verifyBits]
      have h3 : ((x : Int) - (y : Int)).natAbs = ((y : Int) - (x : Int)).natAbs := by
        rw [← Int.natAbs_neg, neg_sub]
      rw [h1, h2, h3, ih ys hlen2 hxs hys]

theorem verifyBits_symm_witness : verifyBits [1, 0] [0, 1] = verifyBits [0, 1] [1, 0] :=
  verifyBits_symm [1, 0] [0, 1] (by decide) (by decide) (by decide)
